import Mathlib

/-!
Verification of the `directus_comments` schema migration
(repository file exporting `up` and `down` over a Knex connection).

The database is embedded shallowly: a table is a `List` of records, an
SQL `UPDATE ... WHERE id = x` is a `List.map` touching only rows whose
`id` equals `x`, a `SELECT ... LIMIT 1` is `List.find?`, and the
per-row `knex.transaction` of `up` is one atomic state-to-state step.
`randomUUID` and the autoincrement id of `directus_activity` are
modelled as injected supplies of fresh identifiers.
-/

set_option autoImplicit false

namespace DirectusCommentsMigration

/-- Modelled from the spec: the `Action` string enum of the constants
package (not part of the excerpted sources); only `CREATE` and
`COMMENT` are used by the migration, all other members are collapsed
into `other`. -/
inductive Action where
  | create
  | comment
  | other (name : String)
deriving DecidableEq, Repr

/-- A row of `directus_activity` (the columns the migration reads or
writes: `id`, `action`, `collection`, `item`, `comment`, `user`,
`timestamp`). `comment` is nullable. -/
structure ActivityRecord where
  id : Nat
  action : Action
  collection : String
  item : String
  comment : Option String
  user : Option String
  timestamp : Nat
deriving DecidableEq, Repr

/-- A row of `directus_comments` (the columns the migration writes in
`up` and reads back in `down`; `date_updated` and `user_updated` are
only ever set by database defaults and never read, so they are
omitted). -/
structure CommentRecord where
  id : String
  collection : String
  item : String
  comment : String
  user_created : Option String
  date_created : Nat
deriving DecidableEq, Repr

/-- The state `up` works on once the `directus_comments` table has been
created: the activity table and the (initially empty) comments table. -/
structure MigState where
  activity : List ActivityRecord
  comments : List CommentRecord
deriving DecidableEq, Repr

/-- The whole database as seen across the migration boundary:
`comments = none` means the `directus_comments` table does not exist. -/
structure DB where
  activity : List ActivityRecord
  comments : Option (List CommentRecord)
deriving DecidableEq, Repr

/-- The name of the comments table, used both for the cross-reference
`collection` value written by `up` and for the search in `down`. -/
def commentsTableName : String := "directus_comments"

/-- The source query of `up`: all activity rows whose `comment` is not
null, ordered by `id` ascending (`whereNotNull` followed by
`orderBy`). -/
def eligible (l : List ActivityRecord) : List ActivityRecord :=
  (l.filter (fun r => r.comment.isSome)).insertionSort (fun a b => a.id ≤ b.id)

/-- The `CommentRecord` inserted by `up` for the activity row `c`,
with the freshly generated identifier `nid`. -/
def newComment (nid : String) (c : ActivityRecord) : CommentRecord :=
  { id := nid
    collection := c.collection
    item := c.item
    comment := c.comment.getD ""
    user_created := c.user
    date_created := c.timestamp }

/-- The in-place rewrite `up` performs on the migrated activity row:
`action = CREATE`, `collection = directus_comments`, `item` = the new
comment id, `comment = null`. -/
def crossRefUpdate (nid : String) (r : ActivityRecord) : ActivityRecord :=
  { r with
    action := Action.create
    collection := commentsTableName
    item := nid
    comment := none }

/-- `UPDATE directus_activity SET ... WHERE id = aid`. -/
def updateWhereId (aid : Nat) (f : ActivityRecord → ActivityRecord)
    (l : List ActivityRecord) : List ActivityRecord :=
  l.map (fun r => if r.id = aid then f r else r)

/-- The body of one per-row transaction of `up`: insert the new
comment row, then rewrite the source activity row. -/
def migrateRow (nid : String) (s : MigState) (c : ActivityRecord) : MigState :=
  { comments := s.comments ++ [newComment nid c]
    activity := updateWhereId c.id (crossRefUpdate nid) s.activity }

/-- `migrateRow` with `randomUUID` modelled as a supply of identifiers
indexed by the number of comment rows inserted so far (one fresh value
per call). -/
def migrateRowU (uuids : Nat → String) (s : MigState) (c : ActivityRecord) :
    MigState :=
  migrateRow (uuids s.comments.length) s c

/-- Modelled from the spec: the chunked-iteration collaborator
(`processChunk` of the utils package, not part of the excerpted
sources) divides an ordered sequence into consecutive chunks of `n`
records (the last chunk may be shorter). Chunk size `0` is treated as
`1`; the migration only ever uses size `100`. -/
def chunksOf {α : Type} (n : Nat) : List α → List (List α)
  | [] => []
  | a :: l => (a :: l.take (n - 1)) :: chunksOf n (l.drop (n - 1))
termination_by l => l.length
decreasing_by simp; omega

/-- Modelled from the spec: chunked iteration invokes the callback
once per chunk in order, awaiting completion before proceeding; with a
state-threading callback this is a fold over the chunks. -/
def processChunk {α β : Type} (l : List α) (n : Nat) (s : β)
    (f : β → List α → β) : β :=
  (chunksOf n l).foldl f s

/-- `up`: create `directus_comments` (empty), select the eligible
activity rows, and process them in chunks of 100, each row through its
own transaction (`migrateRowU`). -/
def up (uuids : Nat → String) (l : List ActivityRecord) : MigState :=
  processChunk (eligible l) 100 { activity := l, comments := [] }
    (fun s chunk => chunk.foldl (migrateRowU uuids) s)

/-- The branch (a) search predicate of `down`: an activity row that is
the cross-reference `up` created for comment `c`. -/
def crossRefPred (c : CommentRecord) (r : ActivityRecord) : Bool :=
  r.collection == commentsTableName && r.item == c.id && r.action == Action.create

/-- The branch (b) search predicate of `down`: an unmigrated shadow
activity row for the same target as comment `c`. -/
def shadowPred (c : CommentRecord) (r : ActivityRecord) : Bool :=
  r.collection == c.collection && r.item == c.item && r.action == Action.comment

/-- The branch (a) rewrite of `down`: restore `action = COMMENT`, the
comment's original target and its text. -/
def restoreUpdate (c : CommentRecord) (r : ActivityRecord) : ActivityRecord :=
  { r with
    action := Action.comment
    collection := c.collection
    item := c.item
    comment := some c.comment }

/-- The branch (c) insert of `down`: a brand-new activity row for
comment `c`, with the database-assigned identifier `nid`. -/
def fabricated (nid : Nat) (c : CommentRecord) : ActivityRecord :=
  { id := nid
    action := Action.comment
    collection := c.collection
    item := c.item
    comment := some c.comment
    user := c.user_created
    timestamp := c.date_created }

/-- One comment row's reconciliation in `down`: branch (a), else
branch (b), else branch (c). -/
def reconcileRow (nid : Nat) (act : List ActivityRecord) (c : CommentRecord) :
    List ActivityRecord :=
  match act.find? (crossRefPred c) with
  | some m => updateWhereId m.id (restoreUpdate c) act
  | none =>
    match act.find? (shadowPred c) with
    | some m => updateWhereId m.id (fun r => { r with comment := some c.comment }) act
    | none => act ++ [fabricated nid c]

/-- `reconcileRow` with the autoincrement id of `directus_activity`
modelled as a supply indexed by the current table length. -/
def reconcileRowU (aids : Nat → Nat) (act : List ActivityRecord)
    (c : CommentRecord) : List ActivityRecord :=
  reconcileRow (aids act.length) act c

/-- `down`: read all comment rows, reconcile them in chunks of 100,
then drop the `directus_comments` table. -/
def down (aids : Nat → Nat) (s : MigState) : DB :=
  { activity := processChunk s.comments 100 s.activity
      (fun act chunk => chunk.foldl (reconcileRowU aids) act)
    comments := none }

/-- The comment rows the `up` loop inserts for the rows `cs`, when the
comments table already holds `k` rows. -/
def commentsOf (uuids : Nat → String) (k : Nat) :
    List ActivityRecord → List CommentRecord
  | [] => []
  | c :: rest => newComment (uuids k) c :: commentsOf uuids (k + 1) rest

/-- The accumulated effect of the `up` loop over the rows `cs` on one
activity row, when the comments table already holds `k` rows. -/
def upFun (uuids : Nat → String) (k : Nat) :
    List ActivityRecord → ActivityRecord → ActivityRecord
  | [], r => r
  | c :: rest, r =>
    upFun uuids (k + 1) rest (if r.id = c.id then crossRefUpdate (uuids k) r else r)

instance : IsTotal ActivityRecord (fun a b => a.id ≤ b.id) :=
  ⟨fun a b => Nat.le_total a.id b.id⟩

instance : IsTrans ActivityRecord (fun a b => a.id ≤ b.id) :=
  ⟨fun _ _ _ hab hbc => Nat.le_trans hab hbc⟩

instance : IsAntisymm ActivityRecord (fun a b => a.id < b.id) :=
  ⟨fun _ _ h1 h2 => absurd h2 (Nat.lt_asymm h1)⟩

/-- What a migrated activity row looks like after `down` has
reconciled it through branch (a): everything as before `up`, except
that `action` is forced to `COMMENT`. -/
def restoredRow (r : ActivityRecord) : ActivityRecord :=
  { r with action := Action.comment, comment := some (r.comment.getD "") }

/-! ### Sample rows for concrete witnesses -/

/-- The spec scenario activity row
`(id 5, articles, 42, comment nice, user u1, timestamp 7)`. -/
def sampleAct : ActivityRecord :=
  { id := 5, action := Action.comment, collection := "articles",
    item := "42", comment := some "nice", user := some "u1", timestamp := 7 }

/-- An activity row with null comment. -/
def sampleNull : ActivityRecord :=
  { id := 1, action := Action.create, collection := "articles",
    item := "7", comment := none, user := none, timestamp := 3 }

/-- A comment row as the forward migration would create it for
`sampleAct` under the identifier `uuid0`. -/
def sampleComment : CommentRecord :=
  { id := "uuid0", collection := "articles", item := "42",
    comment := "nice", user_created := some "u1", date_created := 7 }

/-- The cross-reference activity row matching `sampleComment`. -/
def sampleCrossRef : ActivityRecord :=
  { id := 1, action := Action.create, collection := "directus_comments",
    item := "uuid0", comment := none, user := some "u1", timestamp := 7 }

/-! ### Failure-aware variants of the two loops

The source awaits every per-row operation inside a plain `for` loop:
a rejected per-row promise propagates out of `processChunk` and aborts
the enclosing migration function before any later statement runs.
The oracle `fail` marks the rows whose database operation rejects. -/

/-- The `up` loop with a per-row failure oracle: a failing row's
transaction rolls back (that row contributes nothing to the state) and
the error aborts the remaining iteration, carrying the state at the
moment of failure. -/
def upRowsE (fail : ActivityRecord → Bool) (uuids : Nat → String) :
    List ActivityRecord → MigState →
      Except (ActivityRecord × MigState) MigState
  | [], s => Except.ok s
  | c :: rest, s =>
    if fail c then Except.error (c, s)
    else upRowsE fail uuids rest (migrateRowU uuids s c)

/-- The `down` reconciliation loop with a per-row failure oracle. -/
def downRowsE (fail : CommentRecord → Bool) (aids : Nat → Nat) :
    List CommentRecord → List ActivityRecord →
      Except (CommentRecord × List ActivityRecord) (List ActivityRecord)
  | [], act => Except.ok act
  | c :: rest, act =>
    if fail c then Except.error (c, act)
    else downRowsE fail aids rest (reconcileRowU aids act c)

/-- `down` with a per-row failure oracle: the `dropTable` statement at
the end of `down` runs only after the whole reconciliation loop
succeeded; on a row error the comments table survives with all its
rows. -/
def downE (fail : CommentRecord → Bool) (aids : Nat → Nat) (s : MigState) :
    Except (CommentRecord × DB) DB :=
  match downRowsE fail aids s.comments s.activity with
  | Except.ok act => Except.ok { activity := act, comments := none }
  | Except.error e =>
      Except.error (e.1, { activity := e.2, comments := some s.comments })

/-- Sample eligible rows with ids 1, 2, 3 for the ordering check. -/
def rowOne : ActivityRecord :=
  { id := 1, action := Action.comment, collection := "a", item := "1",
    comment := some "x", user := none, timestamp := 0 }

def rowTwo : ActivityRecord :=
  { id := 2, action := Action.comment, collection := "a", item := "2",
    comment := some "y", user := none, timestamp := 0 }

def rowThree : ActivityRecord :=
  { id := 3, action := Action.comment, collection := "a", item := "3",
    comment := some "z", user := none, timestamp := 0 }

/-! ### Chunked iteration is flat sequential iteration -/

theorem chunksOf_flatten {α : Type} (n : Nat) (l : List α) :
    (chunksOf n l).flatten = l := by
  cases l with
  | nil => simp [chunksOf]
  | cons a t =>
    rw [chunksOf, List.flatten_cons, chunksOf_flatten n (t.drop (n - 1))]
    simp
termination_by l.length
decreasing_by simp; omega

theorem processChunk_eq_foldl {α β : Type} (l : List α) (n : Nat) (s : β)
    (f : β → α → β) :
    processChunk l n s (fun b chunk => chunk.foldl f b) = l.foldl f s := by
  rw [processChunk, ← List.foldl_flatten, chunksOf_flatten]

theorem up_eq_foldl (uuids : Nat → String) (l : List ActivityRecord) :
    up uuids l = (eligible l).foldl (migrateRowU uuids)
      { activity := l, comments := [] } := by
  rw [up, processChunk_eq_foldl]

theorem down_eq_foldl (aids : Nat → Nat) (s : MigState) :
    down aids s =
      { activity := s.comments.foldl (reconcileRowU aids) s.activity
        comments := none } := by
  rw [down, processChunk_eq_foldl]

/-! ### Characterizing the `up` fold -/

theorem upFun_id (uuids : Nat → String) (k : Nat)
    (rows : List ActivityRecord) (r : ActivityRecord) :
    (upFun uuids k rows r).id = r.id := by
  induction rows generalizing k r with
  | nil => rfl
  | cons c rest ih =>
    rw [upFun]
    rcases h : decide (r.id = c.id) with _ | _
    · simp only [of_decide_eq_false h, if_neg (of_decide_eq_false h)]
      exact ih (k + 1) r
    · have heq : r.id = c.id := of_decide_eq_true h
      rw [if_pos heq, ih]
      rfl

theorem foldl_migrateRow_comments (uuids : Nat → String)
    (rows : List ActivityRecord) (s : MigState) :
    (rows.foldl (migrateRowU uuids) s).comments =
      s.comments ++ commentsOf uuids s.comments.length rows := by
  induction rows generalizing s with
  | nil => simp [commentsOf]
  | cons c rest ih =>
    rw [List.foldl_cons, ih, commentsOf]
    simp [migrateRowU, migrateRow]

theorem foldl_migrateRow_activity (uuids : Nat → String)
    (rows : List ActivityRecord) (s : MigState) :
    (rows.foldl (migrateRowU uuids) s).activity =
      s.activity.map (upFun uuids s.comments.length rows) := by
  induction rows generalizing s with
  | nil => simp [upFun]
  | cons c rest ih =>
    rw [List.foldl_cons, ih]
    simp only [migrateRowU, migrateRow, updateWhereId, upFun]
    rw [List.map_map]
    simp [Function.comp]

theorem upFun_not_mem (uuids : Nat → String) (k : Nat)
    (rows : List ActivityRecord) (r : ActivityRecord)
    (h : ∀ c ∈ rows, r.id ≠ c.id) :
    upFun uuids k rows r = r := by
  induction rows generalizing k with
  | nil => rfl
  | cons c rest ih =>
    rw [upFun, if_neg (h c (List.mem_cons_self c rest))]
    exact ih (k + 1) fun x hx => h x (List.mem_cons_of_mem c hx)

theorem upFun_at (uuids : Nat → String) (rows : List ActivityRecord)
    (hnd : (rows.map (fun r => r.id)).Nodup) (k j : Nat) (hj : j < rows.length) :
    upFun uuids k rows (rows.get ⟨j, hj⟩) =
      crossRefUpdate (uuids (k + j)) (rows.get ⟨j, hj⟩) := by
  induction rows generalizing k j with
  | nil => exact absurd hj (Nat.not_lt_zero j)
  | cons c rest ih =>
    rw [List.map_cons, List.nodup_cons] at hnd
    cases j with
    | zero =>
      simp only [List.get]
      rw [upFun, if_pos rfl, Nat.add_zero]
      refine upFun_not_mem uuids (k + 1) rest (crossRefUpdate (uuids k) c) ?_
      intro x hx hid
      exact hnd.1 (by
        rw [show (crossRefUpdate (uuids k) c).id = c.id from rfl] at hid
        rw [hid]
        exact List.mem_map_of_mem (fun r => r.id) hx)
    | succ j2 =>
      simp only [List.get]
      have hj2 : j2 < rest.length := Nat.lt_of_succ_lt_succ hj
      have hne : (rest.get ⟨j2, hj2⟩).id ≠ c.id := by
        intro hid
        exact hnd.1 (by
          rw [← hid]
          exact List.mem_map_of_mem (fun r => r.id) (rest.get_mem j2 hj2))
      rw [upFun, if_neg hne, ih hnd.2 (k + 1) j2 hj2,
        show k + 1 + j2 = k + (j2 + 1) from by omega]

/-! ### The source query of `up` -/

theorem eligible_perm_filter (l : List ActivityRecord) :
    (eligible l).Perm (l.filter (fun r => r.comment.isSome)) :=
  List.perm_insertionSort _ _

theorem eligible_sorted (l : List ActivityRecord) :
    (eligible l).Pairwise (fun a b => a.id ≤ b.id) :=
  List.sorted_insertionSort _ _

theorem eligible_ids_nodup (l : List ActivityRecord)
    (hnd : (l.map (fun r => r.id)).Nodup) :
    ((eligible l).map (fun r => r.id)).Nodup := by
  refine ((eligible_perm_filter l).map (fun r => r.id)).nodup_iff.mpr ?_
  exact (((l.filter_sublist (p := fun r => r.comment.isSome))).map (fun r => r.id)).nodup hnd

theorem eligible_pairwise_lt (l : List ActivityRecord)
    (hnd : (l.map (fun r => r.id)).Nodup) :
    (eligible l).Pairwise (fun a b => a.id < b.id) := by
  have hne : (eligible l).Pairwise (fun a b => a.id ≠ b.id) := by
    have h := eligible_ids_nodup l hnd
    rwa [List.Nodup, List.pairwise_map] at h
  exact ((eligible_sorted l).and hne).imp
    (fun h => Nat.lt_of_le_of_ne h.1 h.2)

theorem eligible_eq_of_perm (l1 l2 : List ActivityRecord)
    (hperm : l1.Perm l2) (hnd : (l1.map (fun r => r.id)).Nodup) :
    eligible l1 = eligible l2 := by
  have hnd2 : (l2.map (fun r => r.id)).Nodup :=
    (hperm.map (fun r => r.id)).nodup_iff.mp hnd
  have hp : (eligible l1).Perm (eligible l2) :=
    (eligible_perm_filter l1).trans
      ((hperm.filter _).trans (eligible_perm_filter l2).symm)
  exact List.eq_of_perm_of_sorted hp (eligible_pairwise_lt l1 hnd)
    (eligible_pairwise_lt l2 hnd2)

theorem eligible_perm_of_all (l : List ActivityRecord)
    (hall : ∀ r ∈ l, r.comment.isSome) : (eligible l).Perm l := by
  have h := eligible_perm_filter l
  rwa [List.filter_eq_self.mpr (fun a ha => hall a ha)] at h

theorem mem_eligible_isSome (l : List ActivityRecord) (r : ActivityRecord)
    (h : r ∈ eligible l) : r.comment.isSome := by
  have hmem := (eligible_perm_filter l).mem_iff.mp h
  exact (List.mem_filter.mp hmem).2

/-! ### Top-level shape of `up` -/

theorem up_activity (uuids : Nat → String) (l : List ActivityRecord) :
    (up uuids l).activity = l.map (upFun uuids 0 (eligible l)) := by
  rw [up_eq_foldl, foldl_migrateRow_activity]
  rfl

theorem up_comments (uuids : Nat → String) (l : List ActivityRecord) :
    (up uuids l).comments = commentsOf uuids 0 (eligible l) := by
  rw [up_eq_foldl, foldl_migrateRow_comments]
  rfl

theorem commentsOf_mem (uuids : Nat → String) (k : Nat)
    (rows : List ActivityRecord) (cm : CommentRecord)
    (h : cm ∈ commentsOf uuids k rows) :
    ∃ a ∈ rows, ∃ j, cm = newComment (uuids j) a := by
  induction rows generalizing k with
  | nil => exact absurd h (List.not_mem_nil cm)
  | cons c rest ih =>
    rw [commentsOf, List.mem_cons] at h
    cases h with
    | inl h => exact ⟨c, List.mem_cons_self c rest, k, h⟩
    | inr h =>
      obtain ⟨a, ha, j, hj⟩ := ih (k + 1) h
      exact ⟨a, List.mem_cons_of_mem c ha, j, hj⟩

/-! ### The net effect of apply-then-revert on one migrated row -/

theorem crossRefPred_crossRefUpdate (c : CommentRecord) (u : String)
    (r : ActivityRecord) :
    crossRefPred c (crossRefUpdate u r) = (u == c.id) := by
  simp [crossRefPred, crossRefUpdate]

theorem crossRefPred_restoredRow (c : CommentRecord) (r : ActivityRecord) :
    crossRefPred c (restoredRow r) = false := by
  simp [crossRefPred, restoredRow]

theorem get_id_ne (E : List ActivityRecord)
    (hnd : (E.map (fun r => r.id)).Nodup) (i j : Nat)
    (hi : i < E.length) (hj : j < E.length) (hne : i ≠ j) :
    (E[i]).id ≠ (E[j]).id := by
  have hpw : E.Pairwise (fun a b => a.id ≠ b.id) := by
    rwa [List.Nodup, List.pairwise_map] at hnd
  rw [List.pairwise_iff_getElem] at hpw
  rcases Nat.lt_or_ge i j with h | h
  · exact hpw i j hi hj h
  · exact (hpw j i hj hi (Nat.lt_of_le_of_ne h (Ne.symm hne))).symm

/-- Main invariant of the `down` loop, run on the output of `up` over
a fully eligible activity table: processing the comments generated for
the suffix of `E` from position `k` onward turns the table, in which
positions below `k` are already restored and positions from `k` on are
still cross-references, into the fully restored table. -/
theorem down_loop_restores (uuids : Nat → String) (aids : Nat → Nat)
    (E l : List ActivityRecord)
    (hinj : ∀ j1, j1 < E.length → ∀ j2, j2 < E.length →
      uuids j1 = uuids j2 → j1 = j2)
    (hndE : (E.map (fun r => r.id)).Nodup)
    (hmem : ∀ r, r ∈ l ↔ r ∈ E) :
    ∀ (rows : List ActivityRecord) (k : Nat), E.drop k = rows →
    ∀ (f : ActivityRecord → ActivityRecord),
    (∀ r, (f r).id = r.id) →
    (∀ j (hj : j < E.length), k ≤ j →
      f (E[j]) = crossRefUpdate (uuids j) (E[j])) →
    (∀ j (hj : j < E.length), j < k →
      f (E[j]) = restoredRow (E[j])) →
    (commentsOf uuids k rows).foldl (reconcileRowU aids) (l.map f) =
      l.map restoredRow := by
  intro rows
  induction rows with
  | nil =>
    intro k hdrop f hid hge hlt
    rw [commentsOf, List.foldl_nil]
    refine List.map_congr_left ?_
    intro r hr
    obtain ⟨j, hj, hget⟩ := List.mem_iff_getElem.mp ((hmem r).mp hr)
    have hk : E.length ≤ k := List.drop_eq_nil_iff.mp hdrop
    rw [← hget]
    exact hlt j hj (Nat.lt_of_lt_of_le hj hk)
  | cons c rest ih =>
    intro k hdrop f hid hge hlt
    have hk : k < E.length := by
      by_contra h
      rw [List.drop_eq_nil_of_le (Nat.le_of_not_lt h)] at hdrop
      exact List.noConfusion hdrop
    rw [List.drop_eq_getElem_cons hk] at hdrop
    have hgetk : E[k] = c := (List.cons.injEq _ _ _ _ ▸ hdrop).1
    have hrest : E.drop (k + 1) = rest := (List.cons.injEq _ _ _ _ ▸ hdrop).2
    -- the first step of the fold: reconciling the comment of row k
    rw [commentsOf, List.foldl_cons]
    set cmt := newComment (uuids k) c with hcmt
    -- every element of the table satisfying the branch (a) search is
    -- the image of row k
    have huniq : ∀ x ∈ l.map f, crossRefPred cmt x = true →
        x = f (E[k]) := by
      intro x hx hpred
      obtain ⟨r, hr, hfr⟩ := List.mem_map.mp hx
      obtain ⟨j, hj, hget⟩ := List.mem_iff_getElem.mp ((hmem r).mp hr)
      rcases Nat.lt_or_ge j k with hjk | hjk
      · rw [← hfr, ← hget, hlt j hj hjk, crossRefPred_restoredRow] at hpred
        exact Bool.noConfusion hpred
      · rw [← hfr, ← hget, hge j hj hjk, crossRefPred_crossRefUpdate] at hpred
        have hujk : uuids j = uuids k := by
          have hcid : cmt.id = uuids k := by rw [hcmt]; rfl
          rw [hcid] at hpred
          exact beq_iff_eq.mp hpred
        have hjeq : j = k := hinj j hj k hk hujk
        rw [← hfr, ← hget]
        subst hjeq
        rfl
    -- the image of row k is in the table and satisfies the search
    have hexists : f (E[k]) ∈ l.map f ∧
        crossRefPred cmt (f (E[k])) = true := by
      constructor
      · exact List.mem_map_of_mem f
          ((hmem _).mpr (List.mem_iff_getElem.mpr ⟨k, hk, rfl⟩))
      · rw [hge k hk (Nat.le_refl k), crossRefPred_crossRefUpdate]
        have hcid : cmt.id = uuids k := by rw [hcmt]; rfl
        rw [hcid]
        exact beq_self_eq_true (uuids k)
    -- hence the branch (a) search finds exactly that row
    have hfind : (l.map f).find? (crossRefPred cmt) = some (f (E[k])) := by
      cases hf : (l.map f).find? (crossRefPred cmt) with
      | none =>
        rw [List.find?_eq_none] at hf
        exact absurd hexists.2 (by simpa using hf _ hexists.1)
      | some m =>
        rw [huniq m (List.mem_of_find?_eq_some hf) (List.find?_some hf)]
    have hstep : reconcileRowU aids (l.map f) cmt =
        l.map (fun r =>
          if r.id = (E[k]).id then restoreUpdate cmt (f r) else f r) := by
      rw [reconcileRowU, reconcileRow, hfind]
      simp only [updateWhereId, List.map_map]
      refine List.map_congr_left ?_
      intro r _
      simp only [Function.comp_apply, hid]
    rw [hstep]
    -- set up the invariant for the remaining rows
    refine ih (k + 1) hrest _ ?_ ?_ ?_
    · intro r
      by_cases h : r.id = (E[k]).id
      · simp only [if_pos h, restoreUpdate, hid]
      · simp only [if_neg h, hid]
    · intro j hj hkj
      have hne : (E[j]).id ≠ (E[k]).id :=
        get_id_ne E hndE j k hj hk (by omega)
      rw [if_neg hne]
      exact hge j hj (by omega)
    · intro j hj hjk
      rcases Nat.lt_or_ge j k with hjlt | hjge
      · have hne : (E[j]).id ≠ (E[k]).id :=
          get_id_ne E hndE j k hj hk (by omega)
        rw [if_neg hne]
        exact hlt j hj hjlt
      · have hjeq : j = k := by omega
        subst hjeq
        rw [if_pos rfl, hge j hj (Nat.le_refl j)]
        rw [hgetk, hcmt]
        simp [restoreUpdate, crossRefUpdate, restoredRow, newComment]

/-! ### Claim C1: round trip -/

/-- C1: for every activity table in which all rows carry a non-null
comment (with primary-key ids unique, and the generated comment
identifiers collision-free), running apply() and then immediately
revert() leaves, for each original row, an activity row with the same
identifier, collection, item, comment, user and timestamp; no new row
is fabricated (the table keeps its length), because branch (a) of
revert() always finds the cross-reference apply() created. -/
theorem C1_round_trip (uuids : Nat → String) (aids : Nat → Nat)
    (l : List ActivityRecord)
    (hall : ∀ r ∈ l, r.comment.isSome)
    (hnd : (l.map (fun r => r.id)).Nodup)
    (hinj : ∀ j1, j1 < l.length → ∀ j2, j2 < l.length →
      uuids j1 = uuids j2 → j1 = j2) :
    (down aids (up uuids l)).activity = l.map restoredRow ∧
    (down aids (up uuids l)).activity.length = l.length ∧
    ∀ r ∈ l, ∃ p ∈ (down aids (up uuids l)).activity,
      p.id = r.id ∧ p.collection = r.collection ∧ p.item = r.item ∧
      p.comment = r.comment ∧ p.user = r.user ∧ p.timestamp = r.timestamp := by
  have hperm : (eligible l).Perm l := eligible_perm_of_all l hall
  have hmem : ∀ r, r ∈ l ↔ r ∈ eligible l := fun r => hperm.mem_iff.symm
  have hlen : (eligible l).length = l.length := hperm.length_eq
  have hndE := eligible_ids_nodup l hnd
  have hinjE : ∀ j1, j1 < (eligible l).length → ∀ j2,
      j2 < (eligible l).length → uuids j1 = uuids j2 → j1 = j2 := by
    rw [hlen]
    exact hinj
  have hge : ∀ j (hj : j < (eligible l).length), 0 ≤ j →
      upFun uuids 0 (eligible l) ((eligible l)[j]) =
        crossRefUpdate (uuids j) ((eligible l)[j]) := by
    intro j hj _
    have h := upFun_at uuids (eligible l) hndE 0 j hj
    simpa using h
  have hlt : ∀ j (hj : j < (eligible l).length), j < 0 →
      upFun uuids 0 (eligible l) ((eligible l)[j]) =
        restoredRow ((eligible l)[j]) := by
    intro j hj h
    exact absurd h (Nat.not_lt_zero j)
  have hmain := down_loop_restores uuids aids (eligible l) l hinjE hndE hmem
    (eligible l) 0 rfl (upFun uuids 0 (eligible l))
    (upFun_id uuids 0 (eligible l)) hge hlt
  have hact : (down aids (up uuids l)).activity = l.map restoredRow := by
    rw [down_eq_foldl, up_comments, up_activity]
    exact hmain
  refine ⟨hact, by rw [hact, List.length_map], ?_⟩
  intro r hr
  refine ⟨restoredRow r, by rw [hact]; exact List.mem_map_of_mem restoredRow hr,
    rfl, rfl, rfl, ?_, rfl, rfl⟩
  obtain ⟨t, ht⟩ := Option.isSome_iff_exists.mp (hall r hr)
  rw [restoredRow, ht]
  rfl

/-- Witness for C1 at the spec scenario row. -/
theorem C1_round_trip_witness :
    ∃ p ∈ (down (fun _ => 0) (up (fun _ => "uuid0") [sampleAct])).activity,
      p.id = 5 ∧ p.collection = "articles" ∧ p.item = "42" ∧
      p.comment = some "nice" ∧ p.user = some "u1" ∧ p.timestamp = 7 := by
  have h := (C1_round_trip (fun _ => "uuid0") (fun _ => 0) [sampleAct]
    (by decide) (by decide) (by decide)).2.2
  simpa [sampleAct] using h sampleAct (by decide)

/-! ### Claim C2: the forward per-row transform -/

/-- C2: each per-row transaction of apply() inserts exactly one
comment row copying `collection`, `item`, `comment`, with
`user_created` = the row's `user` and `date_created` = the row's
`timestamp`, under the freshly generated identifier; it then rewrites
that same activity row (matched by its id) to the cross-reference
`action = CREATE`, `collection = directus_comments`, `item` = the new
comment id, `comment = null`, leaving rows with other ids alone. -/
theorem C2_forward_per_row (nid : String) (s : MigState) (c : ActivityRecord)
    (t : String) (ht : c.comment = some t)
    (hfresh : ∀ cm ∈ s.comments, cm.id ≠ nid) :
    (migrateRow nid s c).comments = s.comments ++ [newComment nid c] ∧
    (newComment nid c).id = nid ∧
    (newComment nid c).collection = c.collection ∧
    (newComment nid c).item = c.item ∧
    (newComment nid c).comment = t ∧
    (newComment nid c).user_created = c.user ∧
    (newComment nid c).date_created = c.timestamp ∧
    (∀ cm ∈ s.comments, cm.id ≠ (newComment nid c).id) ∧
    (migrateRow nid s c).activity =
      updateWhereId c.id (crossRefUpdate nid) s.activity ∧
    (∀ r ∈ s.activity, r.id = c.id →
      crossRefUpdate nid r ∈ (migrateRow nid s c).activity) ∧
    (∀ r ∈ s.activity, r.id ≠ c.id → r ∈ (migrateRow nid s c).activity) := by
  refine ⟨rfl, rfl, rfl, rfl, ?_, rfl, rfl, hfresh, rfl, ?_, ?_⟩
  · simp [newComment, ht]
  · intro r hr hid
    have hmem : (if r.id = c.id then crossRefUpdate nid r else r) ∈
        (migrateRow nid s c).activity :=
      List.mem_map_of_mem (fun x => if x.id = c.id then crossRefUpdate nid x else x) hr
    rwa [if_pos hid] at hmem
  · intro r hr hid
    have hmem : (if r.id = c.id then crossRefUpdate nid r else r) ∈
        (migrateRow nid s c).activity :=
      List.mem_map_of_mem (fun x => if x.id = c.id then crossRefUpdate nid x else x) hr
    rwa [if_neg hid] at hmem

/-- Witness for C2 at the spec scenario row. -/
theorem C2_forward_per_row_witness :
    (migrateRow "uuid0" { activity := [sampleAct], comments := [] }
        sampleAct).comments = [newComment "uuid0" sampleAct] ∧
    (newComment "uuid0" sampleAct).comment = "nice" := by
  have h := C2_forward_per_row "uuid0"
    { activity := [sampleAct], comments := [] } sampleAct "nice"
    (by decide) (by decide)
  exact ⟨h.1, h.2.2.2.2.1⟩

/-! ### Claim C3: revert reconciliation priority -/

/-- C3: per comment row, revert() takes exactly one of three branches,
in priority order: if the search for a cross-reference (collection =
directus_comments, item = the comment id, action = CREATE) finds a
row, that row is rewritten back to the comment's original target; only
when that search is empty and a shadow search (same collection/item,
action = COMMENT) finds a row is that row's comment text overwritten;
only when both searches are empty is a brand-new row inserted. -/
theorem C3_revert_priority (nid : Nat) (act : List ActivityRecord)
    (c : CommentRecord) :
    ((act.find? (crossRefPred c) = none) ↔
      ∀ r ∈ act, crossRefPred c r = false) ∧
    (∀ m, act.find? (crossRefPred c) = some m →
      m ∈ act ∧ crossRefPred c m = true ∧
      reconcileRow nid act c = updateWhereId m.id (restoreUpdate c) act) ∧
    (act.find? (crossRefPred c) = none →
      ∀ m, act.find? (shadowPred c) = some m →
        m ∈ act ∧ shadowPred c m = true ∧
        reconcileRow nid act c =
          updateWhereId m.id (fun r => { r with comment := some c.comment }) act) ∧
    ((∀ r ∈ act, crossRefPred c r = false) →
      (∀ r ∈ act, shadowPred c r = false) →
      reconcileRow nid act c = act ++ [fabricated nid c]) := by
  refine ⟨?_, ?_, ?_, ?_⟩
  · rw [List.find?_eq_none]
    constructor
    · intro h r hr
      exact Bool.not_eq_true _ ▸ (eq_false_of_ne_true (by simpa using h r hr))
    · intro h r hr
      simp [h r hr]
  · intro m hm
    refine ⟨List.mem_of_find?_eq_some hm, List.find?_some hm, ?_⟩
    rw [reconcileRow, hm]
  · intro hn m hm
    refine ⟨List.mem_of_find?_eq_some hm, List.find?_some hm, ?_⟩
    rw [reconcileRow, hn, hm]
  · intro h1 h2
    have hn1 : act.find? (crossRefPred c) = none := by
      rw [List.find?_eq_none]
      intro r hr
      simp [h1 r hr]
    have hn2 : act.find? (shadowPred c) = none := by
      rw [List.find?_eq_none]
      intro r hr
      simp [h2 r hr]
    rw [reconcileRow, hn1, hn2]

/-- Witness for C3: a table holding exactly the cross-reference of
the comment takes branch (a). -/
theorem C3_revert_priority_witness :
    sampleCrossRef ∈ [sampleCrossRef] ∧
    crossRefPred sampleComment sampleCrossRef = true ∧
    reconcileRow 9 [sampleCrossRef] sampleComment =
      updateWhereId sampleCrossRef.id (restoreUpdate sampleComment)
        [sampleCrossRef] :=
  (C3_revert_priority 9 [sampleCrossRef] sampleComment).2.1 sampleCrossRef
    (by decide)

/-! ### Claim C6: no duplication when fabricating -/

/-- C6: for a comment row with neither a cross-reference activity row
nor a matching shadow activity row, revert() appends exactly one new
activity row (the table grows by exactly one), carrying action =
COMMENT, the comment's collection/item/text, user = user_created and
timestamp = date_created. -/
theorem C6_fabricate_exactly_one (nid : Nat) (act : List ActivityRecord)
    (c : CommentRecord)
    (ha : ∀ r ∈ act, crossRefPred c r = false)
    (hb : ∀ r ∈ act, shadowPred c r = false) :
    reconcileRow nid act c = act ++ [fabricated nid c] ∧
    (reconcileRow nid act c).length = act.length + 1 ∧
    (fabricated nid c).id = nid ∧
    (fabricated nid c).action = Action.comment ∧
    (fabricated nid c).collection = c.collection ∧
    (fabricated nid c).item = c.item ∧
    (fabricated nid c).comment = some c.comment ∧
    (fabricated nid c).user = c.user_created ∧
    (fabricated nid c).timestamp = c.date_created := by
  have hn1 : act.find? (crossRefPred c) = none := by
    rw [List.find?_eq_none]
    intro r hr
    simp [ha r hr]
  have hn2 : act.find? (shadowPred c) = none := by
    rw [List.find?_eq_none]
    intro r hr
    simp [hb r hr]
  have heq : reconcileRow nid act c = act ++ [fabricated nid c] := by
    rw [reconcileRow, hn1, hn2]
  refine ⟨heq, ?_, rfl, rfl, rfl, rfl, rfl, rfl, rfl⟩
  rw [heq, List.length_append]
  rfl

/-- Witness for C6 on an empty activity table. -/
theorem C6_fabricate_exactly_one_witness :
    reconcileRow 9 [] sampleComment = [fabricated 9 sampleComment] :=
  (C6_fabricate_exactly_one 9 [] sampleComment (by decide) (by decide)).1

/-! ### Claim C9: rows with null comment are untouched -/

/-- C9: an activity row whose comment is null is excluded from the
source query of apply(), survives apply() unchanged (it is still a
member of the table, mapped to itself), and every comment row apply()
creates stems from some eligible (non-null-comment) row. -/
theorem C9_source_exclusion (uuids : Nat → String) (l : List ActivityRecord)
    (r : ActivityRecord) (hnd : (l.map (fun x => x.id)).Nodup)
    (hr : r ∈ l) (hc : r.comment = none) :
    r ∉ eligible l ∧
    upFun uuids 0 (eligible l) r = r ∧
    (up uuids l).activity = l.map (upFun uuids 0 (eligible l)) ∧
    r ∈ (up uuids l).activity ∧
    ∀ cm ∈ (up uuids l).comments, ∃ a ∈ eligible l, a.comment.isSome ∧
      ∃ j, cm = newComment (uuids j) a := by
  have hnotmem : r ∉ eligible l := by
    intro h
    have hs := mem_eligible_isSome l r h
    rw [hc] at hs
    exact Bool.noConfusion hs
  have hfix : upFun uuids 0 (eligible l) r = r := by
    refine upFun_not_mem uuids 0 (eligible l) r ?_
    intro x hx hid
    have hxl : x ∈ l :=
      List.mem_of_mem_filter ((eligible_perm_filter l).mem_iff.mp hx)
    have hrx : r = x := List.inj_on_of_nodup_map hnd hr hxl hid
    rw [← hrx] at hx
    exact hnotmem hx
  refine ⟨hnotmem, hfix, up_activity uuids l, ?_, ?_⟩
  · rw [up_activity]
    have h := List.mem_map_of_mem (upFun uuids 0 (eligible l)) hr
    rwa [hfix] at h
  · rw [up_comments]
    intro cm hcm
    obtain ⟨a, ha, j, hj⟩ := commentsOf_mem uuids 0 (eligible l) cm hcm
    exact ⟨a, ha, mem_eligible_isSome l a ha, j, hj⟩

/-- Witness for C9: a null-comment row next to an eligible row. -/
theorem C9_source_exclusion_witness :
    sampleNull ∈ (up (fun _ => "uuid0") [sampleNull, sampleAct]).activity := by
  have h := C9_source_exclusion (fun _ => "uuid0") [sampleNull, sampleAct]
    sampleNull (by decide) (by decide) (by decide)
  exact h.2.2.2.1

/-! ### Claim C10: frame of the forward update -/

/-- C10: the rewrite apply() performs on a processed activity row
changes only `action`, `collection`, `item` and `comment`; the row's
`id`, `user` and `timestamp` are left unchanged. -/
theorem C10_forward_update_frame (nid : String) (r : ActivityRecord) :
    (crossRefUpdate nid r).id = r.id ∧
    (crossRefUpdate nid r).user = r.user ∧
    (crossRefUpdate nid r).timestamp = r.timestamp ∧
    (crossRefUpdate nid r).action = Action.create ∧
    (crossRefUpdate nid r).collection = commentsTableName ∧
    (crossRefUpdate nid r).item = nid ∧
    (crossRefUpdate nid r).comment = none :=
  ⟨rfl, rfl, rfl, rfl, rfl, rfl, rfl⟩

theorem upRowsE_ok (fail : ActivityRecord → Bool) (uuids : Nat → String) :
    ∀ (rows : List ActivityRecord) (s : MigState),
    (∀ r ∈ rows, fail r = false) →
    upRowsE fail uuids rows s = Except.ok (rows.foldl (migrateRowU uuids) s) := by
  intro rows
  induction rows with
  | nil => intro s _; rfl
  | cons c rest ih =>
    intro s h
    rw [upRowsE, if_neg (by simp [h c (List.mem_cons_self c rest)]),
      List.foldl_cons]
    exact ih _ fun r hr => h r (List.mem_cons_of_mem c hr)

theorem downRowsE_ok (fail : CommentRecord → Bool) (aids : Nat → Nat) :
    ∀ (cs : List CommentRecord) (act : List ActivityRecord),
    (∀ c ∈ cs, fail c = false) →
    downRowsE fail aids cs act =
      Except.ok (cs.foldl (reconcileRowU aids) act) := by
  intro cs
  induction cs with
  | nil => intro act _; rfl
  | cons c rest ih =>
    intro act h
    rw [downRowsE, if_neg (by simp [h c (List.mem_cons_self c rest)]),
      List.foldl_cons]
    exact ih _ fun x hx => h x (List.mem_cons_of_mem c hx)

/-- Sanity: with no failing row, the instrumented `down` agrees with
`down` itself (the drop happens). -/
theorem downE_eq_down (fail : CommentRecord → Bool) (aids : Nat → Nat)
    (s : MigState) (h : ∀ c ∈ s.comments, fail c = false) :
    downE fail aids s = Except.ok (down aids s) := by
  rw [downE, downRowsE_ok fail aids s.comments s.activity h, down_eq_foldl]

theorem downRowsE_error (fail : CommentRecord → Bool) (aids : Nat → Nat) :
    ∀ (cs : List CommentRecord) (act : List ActivityRecord),
    (∃ c ∈ cs, fail c = true) →
    ∃ e, downRowsE fail aids cs act = Except.error e ∧
      fail e.1 = true ∧ e.1 ∈ cs := by
  intro cs
  induction cs with
  | nil =>
    intro act h
    obtain ⟨c, hc, -⟩ := h
    exact absurd hc (List.not_mem_nil c)
  | cons c rest ih =>
    intro act h
    by_cases hc : fail c = true
    · exact ⟨(c, act), by rw [downRowsE, if_pos hc], hc,
        List.mem_cons_self c rest⟩
    · obtain ⟨d, hd, hdf⟩ := h
      have hdr : d ∈ rest := by
        rcases List.mem_cons.mp hd with h1 | h1
        · exact absurd (h1 ▸ hdf) hc
        · exact h1
      obtain ⟨e, he, hef, her⟩ := ih (reconcileRowU aids act c) ⟨d, hdr, hdf⟩
      refine ⟨e, ?_, hef, List.mem_cons_of_mem c her⟩
      rw [downRowsE, if_neg hc]
      exact he

/-! ### Claim C4: drop only after full reconciliation -/

/-- C4: if any comment row's reconciliation raises an error, revert()
aborts before the table drop: the returned error state still carries
the comments table with all of its rows (the drop is never
executed). -/
theorem C4_no_drop_on_error (fail : CommentRecord → Bool) (aids : Nat → Nat)
    (s : MigState) (h : ∃ c ∈ s.comments, fail c = true) :
    ∃ e, downE fail aids s = Except.error e ∧
      e.2.comments = some s.comments ∧ fail e.1 = true ∧ e.1 ∈ s.comments := by
  obtain ⟨e0, he0, hef, hem⟩ := downRowsE_error fail aids s.comments s.activity h
  refine ⟨(e0.1, { activity := e0.2, comments := some s.comments }), ?_,
    rfl, hef, hem⟩
  rw [downE, he0]

/-- Witness for C4: a single comment row whose reconciliation fails
leaves the table in place. -/
theorem C4_no_drop_on_error_witness :
    ∃ e, downE (fun _ => true) (fun _ => 9)
        { activity := [], comments := [sampleComment] } = Except.error e ∧
      e.2.comments = some [sampleComment] := by
  obtain ⟨e, he, hc, -, -⟩ := C4_no_drop_on_error (fun _ => true) (fun _ => 9)
    { activity := [], comments := [sampleComment] } (by decide)
  exact ⟨e, he, hc⟩

/-! ### Claim C5: per-row transactions commit independently -/

theorem commentsOf_length (uuids : Nat → String) :
    ∀ (rows : List ActivityRecord) (k : Nat),
    (commentsOf uuids k rows).length = rows.length := by
  intro rows
  induction rows with
  | nil => intro k; rfl
  | cons c rest ih =>
    intro k
    rw [commentsOf, List.length_cons, ih (k + 1), List.length_cons]

/-- The `up` loop aborts exactly at the first failing row, with all
earlier rows committed. -/
theorem upRowsE_error_at (fail : ActivityRecord → Bool)
    (uuids : Nat → String) :
    ∀ (pre : List ActivityRecord) (c : ActivityRecord)
      (post : List ActivityRecord) (s : MigState),
    (∀ r ∈ pre, fail r = false) → fail c = true →
    upRowsE fail uuids (pre ++ c :: post) s =
      Except.error (c, pre.foldl (migrateRowU uuids) s) := by
  intro pre
  induction pre with
  | nil =>
    intro c post s _ hc
    rw [List.nil_append, upRowsE, if_pos hc, List.foldl_nil]
  | cons p rest ih =>
    intro c post s hpre hc
    rw [List.cons_append, upRowsE,
      if_neg (by simp [hpre p (List.mem_cons_self p rest)]), List.foldl_cons]
    exact ih c post _ (fun r hr => hpre r (List.mem_cons_of_mem p hr)) hc

/-- C5: when the rows before `c` succeed and `c`'s own transaction
fails, apply() aborts at `c` and the state at failure is exactly the
accumulated effect of the earlier rows: their inserts and updates have
committed (one comment row per processed row), while `c` contributed
nothing. -/
theorem C5_partial_progress (fail : ActivityRecord → Bool)
    (uuids : Nat → String) (pre post : List ActivityRecord)
    (c : ActivityRecord) (s : MigState)
    (hpre : ∀ r ∈ pre, fail r = false) (hc : fail c = true) :
    upRowsE fail uuids (pre ++ c :: post) s =
      Except.error (c, pre.foldl (migrateRowU uuids) s) ∧
    (pre.foldl (migrateRowU uuids) s).comments.length =
      s.comments.length + pre.length := by
  constructor
  · exact upRowsE_error_at fail uuids pre c post s hpre hc
  · rw [foldl_migrateRow_comments, List.length_append, commentsOf_length]

/-- Witness for C5: first row commits, second row fails. -/
theorem C5_partial_progress_witness :
    upRowsE (fun r => r.id == 1) (fun _ => "uuid0")
        [sampleAct, sampleNull]
        { activity := [sampleAct, sampleNull], comments := [] } =
      Except.error (sampleNull,
        [sampleAct].foldl (migrateRowU (fun _ => "uuid0"))
          { activity := [sampleAct, sampleNull], comments := [] }) :=
  (C5_partial_progress (fun r => r.id == 1) (fun _ => "uuid0")
    [sampleAct] [] sampleNull
    { activity := [sampleAct, sampleNull], comments := [] }
    (by decide) (by decide)).1

/-! ### Claim C7: ordering determinism -/

/-- C7: apply() processes the eligible rows in ascending id order
(the processing list is sorted by id), and this list — hence the
comments table apply() builds, and up to storage order the rewritten
activity table — does not depend on the order in which the activity
rows were stored. -/
theorem C7_order_determinism (uuids : Nat → String)
    (l1 l2 : List ActivityRecord) (hperm : l1.Perm l2)
    (hnd : (l1.map (fun r => r.id)).Nodup) :
    eligible l1 = eligible l2 ∧
    (eligible l1).Pairwise (fun a b => a.id ≤ b.id) ∧
    (up uuids l1).comments = (up uuids l2).comments ∧
    (up uuids l1).activity.Perm (up uuids l2).activity := by
  have heq := eligible_eq_of_perm l1 l2 hperm hnd
  refine ⟨heq, eligible_sorted l1, ?_, ?_⟩
  · rw [up_comments, up_comments, heq]
  · rw [up_activity, up_activity, heq]
    exact hperm.map _

/-- Witness for C7: rows stored as [3,1,2] are processed as [1,2,3]
and produce the same comments table as rows stored in order. -/
theorem C7_order_determinism_witness :
    eligible [rowThree, rowOne, rowTwo] = eligible [rowOne, rowTwo, rowThree] ∧
    (eligible [rowThree, rowOne, rowTwo]).map (fun r => r.id) = [1, 2, 3] ∧
    (up (fun _ => "u") [rowThree, rowOne, rowTwo]).comments =
      (up (fun _ => "u") [rowOne, rowTwo, rowThree]).comments := by
  have h := C7_order_determinism (fun _ => "u") [rowThree, rowOne, rowTwo]
    [rowOne, rowTwo, rowThree] (by decide) (by decide)
  exact ⟨h.1, by decide, h.2.2.1⟩

/-! ### Claim C8: batch boundary at 250 rows -/

/-- C8: a 250-row eligible set is divided into exactly 3 chunks of
sizes 100, 100 and 50, in order; and the chunked processing of apply()
is the same as committing every row through its own one-row
transaction in sequence (no batch-wide transaction exists). -/
theorem C8_batch_boundary (rows : List ActivityRecord)
    (h : rows.length = 250) :
    (chunksOf 100 rows).length = 3 ∧
    (chunksOf 100 rows).map (fun ch => ch.length) = [100, 100, 50] ∧
    ∀ (uuids : Nat → String) (l : List ActivityRecord),
      up uuids l = (eligible l).foldl (migrateRowU uuids)
        { activity := l, comments := [] } := by
  have h1 : rows ≠ [] := by
    intro he
    rw [he] at h
    exact absurd h (by decide)
  obtain ⟨a, t1, rfl⟩ := List.exists_cons_of_ne_nil h1
  have ht1 : t1.length = 249 := by simpa using h
  have h2 : (t1.drop 99).length = 150 := by simp [ht1]
  have h2ne : t1.drop 99 ≠ [] := by
    intro he
    rw [he] at h2
    exact absurd h2 (by decide)
  obtain ⟨b, t2, hbt2⟩ := List.exists_cons_of_ne_nil h2ne
  have ht2 : t2.length = 149 := by
    have h3 := congrArg List.length hbt2
    rw [h2] at h3
    simpa using h3.symm
  have h4 : (t2.drop 99).length = 50 := by simp [ht2]
  have h4ne : t2.drop 99 ≠ [] := by
    intro he
    rw [he] at h4
    exact absurd h4 (by decide)
  obtain ⟨c, t3, hct3⟩ := List.exists_cons_of_ne_nil h4ne
  have ht3 : t3.length = 49 := by
    have h5 := congrArg List.length hct3
    rw [h4] at h5
    simpa using h5.symm
  have h6 : t3.drop 99 = [] := List.drop_eq_nil_of_le (by omega)
  have e1 : chunksOf 100 (a :: t1) =
      (a :: t1.take 99) :: chunksOf 100 (t1.drop 99) := by
    rw [chunksOf]
  have e2 : chunksOf 100 (t1.drop 99) =
      (b :: t2.take 99) :: chunksOf 100 (t2.drop 99) := by
    rw [hbt2, chunksOf]
  have e3 : chunksOf 100 (t2.drop 99) = [c :: t3] := by
    rw [hct3, chunksOf]
    norm_num
    exact ⟨by omega, by rw [h6]; rw [chunksOf]⟩
  have hch : chunksOf 100 (a :: t1) =
      [a :: t1.take 99, b :: t2.take 99, c :: t3] := by
    rw [e1, e2, e3]
  refine ⟨by rw [hch]; rfl, ?_, fun uuids l => up_eq_foldl uuids l⟩
  rw [hch]
  simp only [List.map_cons, List.map_nil, List.length_cons,
    List.length_take, ht1, ht2, ht3]
  norm_num

/-- Witness for C8 on a concrete 250-row list. -/
theorem C8_batch_boundary_witness :
    (chunksOf 100 (List.replicate 250 sampleAct)).map (fun ch => ch.length) =
      [100, 100, 50] :=
  (C8_batch_boundary (List.replicate 250 sampleAct)
    (List.length_replicate 250 sampleAct)).2.1

end DirectusCommentsMigration
